import Mathlib

/-!
Verification development for the tethne burst-detection core
(`tethne/analyze/corpus.py`): the Kleinberg burst automaton `_forward`,
the per-feature pipeline `feature_burstness`, the fan-out coordinator
`burstness` with its worker `feature_burstness_wrapper`, and the `sigma`
calculator.

The Python source is embedded shallowly:

* the mutable `C_values` table of `_forward` becomes a function
  `ℕ → ℕ → C` updated cell by cell, with the exact fill order of the
  source (outer loop over states `j`, inner loop over time steps `t`);
* the per-cell `try ... except` of `_forward` becomes an `Option`-valued
  cell body, `none` standing for a raised exception, resolved to the
  infinite cost `⊤` exactly as the `except` branch does;
* `mpmath` arbitrary-precision values are idealised as real numbers
  (`WithTop ℝ`, `⊤` standing for `mp.mpf("inf")`);
* Python lists that are mutated in place (the `dates` list of
  `feature_burstness`) are threaded explicitly: the function returns the
  final value of the list next to its result;
* fallible calls (`_forward` returning `None`, `feature_burstness`
  returning `None`) return `Option` values.

Helpers `argmin` and `mean` live in `tethne.utilities`, whose source is
not part of this snapshot; they are modelled from the specification and
are marked as such in their doc comments.
-/

set_option linter.unusedSectionVars false

namespace Tethne

/-! ## Definitions -/

/-! ### The cost table of `_forward`

`C_values = [[0 for t in range(len(X))] for j in range(k)]` is a `k × T`
array initialised with the integer `0`, then overwritten cell by cell:

```
for j in range(k):
    for t in range(len(X)):
        try:
            C_values[j][t] = C(j,t)
        except:
            C_values[j][t] = mp.mpf("inf")
```

The table is embedded as a total function `ℕ → ℕ → C` (out-of-range
cells keep the initial value `0`, matching cells that are never
written).  The cell body is a function of the current table state which
may fail (`none` = a raised exception); a failed cell is written as `⊤`.
The development is generic in the cost type `C` so that the same loop
skeleton serves the real-valued instantiation and small decidable
instances. -/

/-- A `k × T` cost table, as a total function; unwritten cells are `0`. -/
def Table (C : Type) : Type := ℕ → ℕ → C

/-- Write value `v` into cell `(j, t)` of the table (the assignment
`C_values[j][t] = v`). -/
def writeCell {C : Type} (tbl : Table C) (j t : ℕ) (v : C) : Table C :=
  fun j' t' => if j' = j ∧ t' = t then v else tbl j' t'

/-- One iteration of the inner loop body: compute the cell body on the
current table; on failure (`except:`) write the infinite cost `⊤`. -/
def cellStep {C : Type} [Top C] (body : Table C → ℕ → ℕ → Option C)
    (j : ℕ) (tbl : Table C) (t : ℕ) : Table C :=
  writeCell tbl j t ((body tbl j t).getD ⊤)

/-- The inner loop `for t in range(T)` over row `j`. -/
def fillRow {C : Type} [Top C] (body : Table C → ℕ → ℕ → Option C)
    (T : ℕ) (tbl : Table C) (j : ℕ) : Table C :=
  (List.range T).foldl (cellStep body j) tbl

/-- The initial table: every cell holds the integer `0`. -/
def initTable (C : Type) [Zero C] : Table C := fun _ _ => 0

/-- The outer loop `for j in range(k)`: the full table fill of
`_forward`. -/
def fillTable {C : Type} [Top C] [Zero C]
    (body : Table C → ℕ → ℕ → Option C) (k T : ℕ) : Table C :=
  (List.range k).foldl (fillRow body T) (initTable C)

/-- The table state visible to the computation of cell `(j, t)`: cells
written earlier in the fill order (rows below `j`, and row `j` strictly
left of `t`) already hold their final value; every other cell still
holds the initial `0`. -/
def visibleAt {C : Type} [Zero C] (F : Table C) (j t : ℕ) : Table C :=
  fun l τ => if l < j ∨ (l = j ∧ τ < t) then F l τ else 0

/-! ### Helpers from `tethne.utilities`

The module `tethne.utilities` is not part of this source snapshot; only
its callers are.  `argmin` and `mean` are modelled from the
specification. -/

/-- Modelled from the spec: `tethne.utilities.argmin` is missing from
the snapshot.  Per the specification, state extraction is an argmin
over a column "with ties broken by smallest `j`"; on an empty list the
minimisation fails (modelled as `none`, standing for the exception that
the extraction `try` block turns into `states = None`). -/
def argminAux {C : Type} [LinearOrder C] : ℕ × C → ℕ → List C → ℕ
  | best, _, [] => best.1
  | best, i, x :: xs =>
      if x < best.2 then argminAux (i, x) (i+1) xs else argminAux best (i+1) xs

/-- Modelled from the spec: see `argminAux`. -/
def argmin {C : Type} [LinearOrder C] : List C → Option ℕ
  | [] => none
  | x :: xs => some (argminAux (0, x) 1 xs)

/-- Modelled from the spec: `tethne.utilities.mean` is missing from the
snapshot; the specification calls it the arithmetic mean of the states
in a date bucket. -/
noncomputable def mean (l : List ℕ) : ℝ := (l.sum : ℝ) / l.length

/-! ### The `_forward` decoder

```
def _forward(X, s=mp.mpf(1.1), gamma=mp.mpf(1.), k=5):
    X = list(X); T = sum(X); n = len(X)
    def alpha(i): return mp.mpf(n/T)*mp.mpf(s**i)
    def tau(i, j):
        if j > i: return mp.mpf(j-i)*gamma*mp.ln(mp.mpf(n))
        return mp.mpf(0.)
    def f(j, x): return mp.mpf(alpha(j)) * mp.exp(mp.mpf(-1.) * alpha(j) * x)
    def C(j, t):
        if j == 0 and t == 0: return mp.mpf(0.)
        elif t == 0: return mp.mpf("inf")
        C_tau = min([C_values[l][t-1] + tau(l, j) for l in range(k)])
        return (mp.mpf(-1.) * mp.ln(mp.mpf(f(j,X[t])))) + C_tau
    ...
```

Gaps are exact rationals produced by `feature_burstness`; `mpmath`
arbitrary-precision values are idealised as reals, `mp.mpf("inf")` as
`⊤ : WithTop ℝ`.  With arbitrary precision the only arithmetic domain
failure a cell can hit is the `ZeroDivisionError` of `n/T` when the gap
total `T` is zero (there is no underflow of `f` to zero), so the cell
body fails exactly when `X.sum ≤ 0`; a negative total additionally makes
`mp.ln` of the negative `f` complex, which poisons the column
minimisations and the final extraction, so `_forward` returns `None`
when `X.sum < 0`. -/

/-- `alpha(i) = (n/T) * s**i`. -/
noncomputable def alphaR (X : List ℚ) (s : ℝ) (i : ℕ) : ℝ :=
  ((X.length : ℝ) / ((X.sum : ℚ) : ℝ)) * s ^ i

/-- `tau(i, j)`: the transition cost, free unless the state increases. -/
noncomputable def tauR (X : List ℚ) (gamma : ℝ) (i j : ℕ) : WithTop ℝ :=
  if i < j then (((j : ℝ) - (i : ℝ)) * gamma * Real.log (X.length : ℝ) : ℝ)
  else (0 : ℝ)

/-- `f(j, x) = alpha(j) * exp(-1 * alpha(j) * x)`. -/
noncomputable def fR (X : List ℚ) (s : ℝ) (j : ℕ) (x : ℚ) : ℝ :=
  alphaR X s j * Real.exp (-1 * alphaR X s j * (x : ℝ))

/-- `min([...])` over the `k` states, as the source computes `C_tau`;
`⊤` is the neutral element (for `k = 0` the Python `min` would raise,
but the source never evaluates a cell when `k = 0`). -/
def colMin {C : Type} [LinearOrder C] [Top C] (k : ℕ) (g : ℕ → C) : C :=
  ((List.range k).map g).foldr min ⊤

/-- The cell body `C(j, t)` of `_forward`, evaluated against the current
table state; `none` models a raised arithmetic exception (see the
section comment). -/
noncomputable def forwardBody (X : List ℚ) (s gamma : ℝ) (k : ℕ)
    (tbl : Table (WithTop ℝ)) (j t : ℕ) : Option (WithTop ℝ) :=
  if j = 0 ∧ t = 0 then some ((0 : ℝ) : WithTop ℝ)
  else if t = 0 then some ⊤
  else if X.sum ≤ 0 then none
  else some ((((-1 : ℝ) * Real.log (fR X s j (X.getD t 0)) : ℝ) : WithTop ℝ)
    + colMin k (fun l => tbl l (t-1) + tauR X gamma l j))

/-- The cost table computed by `_forward` for gaps `X`. -/
noncomputable def forwardTable (X : List ℚ) (s gamma : ℝ) (k : ℕ) :
    Table (WithTop ℝ) :=
  fillTable (forwardBody X s gamma k) k X.length

/-- `_forward`: fill the table, then extract
`states = [argmin([c[t] for c in C_values]) for t in range(n)]`;
`none` is the `states = None` of the extraction `except` branch. -/
noncomputable def forward (X : List ℚ) (s gamma : ℝ) (k : ℕ) :
    Option (List ℕ) :=
  if X.sum < 0 then none
  else (List.range X.length).mapM
    (fun t => argmin ((List.range k).map (fun j => forwardTable X s gamma k j t)))

/-- The cost value defined by the recurrence as the specification
states it (column `t`, then state `j`): `C(0,0) = 0`, `C(j,0) = ∞` for
`j > 0`, and for `t > 0` the emission cost plus the minimum over all
states `l` of `C(l,t-1)` — *itself the recurrence value* — plus the
transition cost.  Written from the spec wording, to be compared with
`forwardTable`. -/
noncomputable def specCol (X : List ℚ) (s gamma : ℝ) (k : ℕ) :
    ℕ → ℕ → WithTop ℝ
  | 0 => fun j => if j = 0 then ((0 : ℝ) : WithTop ℝ) else ⊤
  | t+1 => fun j =>
      (((-1 : ℝ) * Real.log (fR X s j (X.getD (t+1) 0)) : ℝ) : WithTop ℝ)
        + colMin k (fun l => specCol X s gamma k t l + tauR X gamma l j)

/-! ### Corpus collaborator and the event-sequence builder

`feature_burstness(corpus, featureset_name, feature, ...)` consumes two
collaborator capabilities: `corpus.feature_distribution(featureset_name,
feature)` (an ordered list of `(date, count)` pairs, returned as the
pair `(years, values)` of parallel lists and consumed zipped) and
`min(corpus.indices[date].keys())`.  A corpus is embedded as exactly
those two capabilities, for a fixed featureset. -/

/-- The corpus collaborator: a distribution per feature and the minimum
date of the date index. -/
structure Corpus where
  dist : ℕ → List (ℤ × ℕ)
  minDate : ℤ

/-- One iteration of the gap-building loop of `feature_burstness`
(`for year, N in zip(years, values): ...`).  The state is the pair
`(X_, dates)`; the Python `dates.append` mutations become appends to the
threaded list, and `dates[-1]` is `getLastD 0` (the source indexes a
nonempty list; `0` is a junk default that is never reached from the
callers, which always pass a padded nonempty list). -/
def fbStep (st : List ℚ × List ℤ) (p : ℤ × ℕ) : List ℚ × List ℤ :=
  if p.2 = 0 then st
  else if 1 < p.2 then
    if p.1 = st.2.getLastD 0 + 1 then
      (st.1 ++ List.replicate p.2 (1 / (p.2 : ℚ)),
       st.2 ++ List.replicate p.2 p.1)
    else
      (st.1 ++ ((p.1 : ℚ) - (st.2.getLastD 0 : ℚ))
          :: List.replicate (p.2 - 1) (1 / ((p.2 : ℚ) - 1)),
       st.2 ++ List.replicate p.2 p.1)
  else
    (st.1 ++ [(p.1 : ℚ) - (st.2.getLastD 0 : ℚ)], st.2 ++ [p.1])

/-- The gap-building loop of `feature_burstness`: starting from
`X_ = [mp.mpf(1.)]` and the given `dates` list, fold the distribution. -/
def buildX (dates0 : List ℤ) (dist : List (ℤ × ℕ)) : List ℚ × List ℤ :=
  dist.foldl fbStep ([1], dates0)

/-- The gap list actually handed to `_forward`:
`[x*100 for x in X_]`. -/
def decoderInput (dates0 : List ℤ) (dist : List (ℤ × ℕ)) : List ℚ :=
  (buildX dates0 dist).1.map (fun x => x * 100)

/-- The gap sequence as the specification words it (spec section 4.1),
written independently of the source: track the previous date as a
scalar; per `(date, count)` pair emit the gaps the spec prescribes. -/
def specGapsAux : ℤ → List (ℤ × ℕ) → List ℚ
  | _, [] => []
  | prev, (date, count) :: rest =>
      if count = 0 then specGapsAux prev rest
      else if count = 1 then ((date : ℚ) - (prev : ℚ)) :: specGapsAux date rest
      else if date = prev + 1 then
        List.replicate count (1 / (count : ℚ)) ++ specGapsAux date rest
      else
        (((date : ℚ) - (prev : ℚ))
            :: List.replicate (count - 1) (1 / ((count : ℚ) - 1)))
          ++ specGapsAux date rest

/-- Spec-side gap sequence: the initial synthetic gap `1.0`, then the
per-pair gaps of `specGapsAux`. -/
def specGaps (pad : ℤ) (dist : List (ℤ × ℕ)) : List ℚ :=
  1 :: specGapsAux pad dist

/-! ### `feature_burstness` -/

/-- The date bucket of the aggregation step:
`for i in range(len(X_)): A[dates[i]].append(st[i])`, restricted to one
key `d`. -/
def bucket (dates : List ℤ) (st : List ℕ) (len : ℕ) (d : ℤ) : List ℕ :=
  ((List.range len).filter (fun i => dates.getD i 0 = d)).map
    (fun i => st.getD i 0)

/-- The dates used as bucket keys: `dates[i]` for `i in
range(len(X_))`. -/
def usedDates (dates : List ℤ) (len : ℕ) : List ℤ :=
  (List.range len).map (fun i => dates.getD i 0)

/-- The sorted key list `D = sorted(A.keys())`. -/
def sortedKeys (dates : List ℤ) (len : ℕ) : List ℤ :=
  ((usedDates dates len).dedup).insertionSort (· ≤ ·)

/-- The core of `feature_burstness`, given the (possibly shared and
already grown) `dates` list and the feature distribution: build the
gaps, decode, bin by date, normalise, drop the synthetic first date.
Returns the result (`none` is the `return None` taken when `_forward`
yields no state sequence) together with the final value of the mutated
`dates` list. -/
noncomputable def fbCore (dates0 : List ℤ) (dist : List (ℤ × ℕ)) (k : ℕ)
    (normalize : Bool) (s gamma : ℝ) :
    Option (List ℤ × List ℝ) × List ℤ :=
  let Xd := buildX dates0 dist
  match forward (decoderInput dates0 dist) s gamma k with
  | none => (none, Xd.2)
  | some st =>
      let score : ℤ → ℝ := fun d =>
        if normalize then mean (bucket Xd.2 st Xd.1.length d) / k
        else mean (bucket Xd.2 st Xd.1.length d)
      let D := sortedKeys Xd.2 Xd.1.length
      (some (D.drop 1, (D.drop 1).map score), Xd.2)

/-- `feature_burstness(corpus, featureset_name, feature, ...)` with
`dates=None`: the `dates` list is built fresh from the corpus
(`[min(corpus.indices[date].keys()) - 1]`) on every call, so its
mutation is invisible to the caller. -/
noncomputable def feature_burstness (c : Corpus) (f : ℕ) (k : ℕ)
    (normalize : Bool) (s gamma : ℝ) : Option (List ℤ × List ℝ) :=
  (fbCore [c.minDate - 1] (c.dist f) k normalize s gamma).1

/-! ### The fan-out coordinator `burstness` -/

/-- `feature_burstness_wrapper`: iterate over the chunk with the chunk
distributions (precomputed by the parent from the corpus), passing the
*same* `dates` list to every call; the list mutated by one call is seen
by the next, which the embedding makes explicit by threading it. -/
noncomputable def wrapper (c : Corpus) (dates0 : List ℤ) (fs : List ℕ)
    (k : ℕ) (normalize : Bool) (s gamma : ℝ) :
    List (ℕ × Option (List ℤ × List ℝ)) × List ℤ :=
  fs.foldl (fun acc f =>
    let r := fbCore acc.2 (c.dist f) k normalize s gamma
    (acc.1 ++ [(f, r.1)], r.2)) ([], dates0)

/-- The contiguous slice `features[i*len_per_worker:(i+1)*len_per_worker]`
handed to worker `i`. -/
def chunk (features : List ℕ) (len_per_worker i : ℕ) : List ℕ :=
  (features.drop (i * len_per_worker)).take len_per_worker

/-- `burstness(corpus, featureset_name, features=..., k, workers,
normalize, **kwargs)` for an explicitly given feature list.

* `workers == 1`: a sequential dict comprehension over `features`,
  each call building its own fresh `dates` list, with the callers
  decode parameters `s`, `gamma`.
* otherwise: `len_per_worker = int(len(features)/workers)` contiguous
  chunks for `i in range(workers+1)`; each worker receives (via
  pickling, hence as its own copy) the one-element padded `dates` list
  and hardcoded decode parameters `1.1` and `1.`; the per-worker dicts
  are merged with `B.update(tmp_B)`, embedded as list concatenation. -/
noncomputable def burstness (c : Corpus) (features : List ℕ)
    (k workers : ℕ) (normalize : Bool) (s gamma : ℝ) :
    List (ℕ × Option (List ℤ × List ℝ)) :=
  if workers = 1 then
    features.map (fun f => (f, feature_burstness c f k normalize s gamma))
  else
    let len_per_worker := features.length / workers
    ((List.range (workers + 1)).map (fun i =>
      (wrapper c [c.minDate - 1] (chunk features len_per_worker i)
        k normalize (1.1 : ℝ) (1 : ℝ)).1)).flatten

/-! ### The `sigma` calculator

The per-slice loop of `sigma`:

```
for key, graph in list(G.items()):
    centrality = nx.betweenness_centrality(graph)
    sigma = {}
    for n_, burst in list(B.items()):
        burst = dict(list(zip(*burst)))
        n = G.node_lookup[n_]
        if n in graph.nodes() and key in burst:
            sigma[n] = ((centrality[n] + 1.) ** burst[key]) - 1.
    Sigma[key] = sigma
```

The graph collaborator contributes, per slice, a node set and the
betweenness-centrality map; both are taken as inputs. -/

/-- One time slice of the graph collection: its node set and its
betweenness-centrality map (collaborator-provided). -/
structure GraphSlice where
  nodes : List ℕ
  centrality : ℕ → ℝ

/-- The inner loop of `sigma` for one time slice `key`: walk the burst
map `B`, keep the nodes present in the slice whose burst series has an
entry for `key`, and score them `(centrality + 1) ** burst - 1`. -/
noncomputable def sigmaSlice (g : GraphSlice) (node_lookup : ℕ → ℕ)
    (key : ℤ) (B : List (ℕ × (List ℤ × List ℝ))) : List (ℕ × ℝ) :=
  B.foldl (fun acc fb =>
    let burst := fb.2.1.zip fb.2.2
    let n := node_lookup fb.1
    if n ∈ g.nodes then
      match burst.lookup key with
      | some b => acc ++ [(n, (g.centrality n + 1) ^ b - 1)]
      | none => acc
    else acc) []

/-- The outer loop of `sigma` over the time-sliced graphs: one
`Sigma[key]` per slice. -/
noncomputable def sigmaSlices (slices : List (ℤ × GraphSlice))
    (node_lookup : ℕ → ℕ) (B : List (ℕ × (List ℤ × List ℝ))) :
    List (ℤ × List (ℕ × ℝ)) :=
  slices.map (fun kg => (kg.1, sigmaSlice kg.2 node_lookup kg.1 B))

/-- A one-feature-distribution corpus used for concrete instances. -/
def tinyCorpus : Corpus := ⟨fun _ => [(2000, 1)], 2000⟩

/-! ## Lemmas about the table fill -/

section FillLemmas

variable {C : Type} [Top C] [Zero C]
variable (body : Table C → ℕ → ℕ → Option C)

omit [Top C] [Zero C] in
theorem writeCell_same (tbl : Table C) (j t : ℕ) (v : C) :
    writeCell tbl j t v j t = v := by
  simp [writeCell]

omit [Top C] [Zero C] in
theorem writeCell_other (tbl : Table C) (j t : ℕ) (v : C) (j' t' : ℕ)
    (h : ¬(j' = j ∧ t' = t)) : writeCell tbl j t v j' t' = tbl j' t' := by
  simp [writeCell, h]

/-- Cells outside row `j`, or at column `≥ m`, are untouched by the
first `m` inner-loop iterations on row `j`. -/
theorem fillRowN_untouched (m : ℕ) (tbl : Table C) (j j' t' : ℕ)
    (h : j' ≠ j ∨ m ≤ t') :
    (List.range m).foldl (cellStep body j) tbl j' t' = tbl j' t' := by
  induction m with
  | zero => rfl
  | succ m ih =>
      rw [List.range_succ, List.foldl_append]
      have hne : ¬(j' = j ∧ t' = m) := by
        rcases h with h | h
        · exact fun hc => h hc.1
        · exact fun hc => by omega
      simp only [List.foldl_cons, List.foldl_nil, cellStep]
      rw [writeCell_other _ _ _ _ _ _ hne]
      exact ih (by omega)

/-- Once written, a cell of row `j` keeps its value for the rest of the
inner loop: iterating to `m ≥ t+1` gives the value written at step `t`. -/
theorem fillRowN_stable (m t : ℕ) (tbl : Table C) (j : ℕ) (h : t < m) :
    (List.range m).foldl (cellStep body j) tbl j t
      = (List.range (t+1)).foldl (cellStep body j) tbl j t := by
  induction m with
  | zero => omega
  | succ m ih =>
      rcases Nat.lt_or_ge t m with hlt | hge
      · rw [List.range_succ, List.foldl_append]
        simp only [List.foldl_cons, List.foldl_nil, cellStep]
        rw [writeCell_other _ _ _ _ _ _ (by omega)]
        exact ih hlt
      · have : t = m := by omega
        subst this; rfl

/-- The value written into cell `(j, t)` is the body evaluated on the
table state reached just before step `t`. -/
theorem fillRowN_write (t : ℕ) (tbl : Table C) (j : ℕ) :
    (List.range (t+1)).foldl (cellStep body j) tbl j t
      = (body ((List.range t).foldl (cellStep body j) tbl) j t).getD ⊤ := by
  rw [List.range_succ, List.foldl_append]
  simp only [List.foldl_cons, List.foldl_nil, cellStep]
  exact writeCell_same _ _ _ _

/-- Rows `≥ m` of the table are untouched by the first `m` outer-loop
iterations: they still hold the initial `0`. -/
theorem fillTableN_untouched (m : ℕ) (T : ℕ) (j' t' : ℕ) (h : m ≤ j') :
    (List.range m).foldl (fillRow body T) (initTable C) j' t' = 0 := by
  induction m with
  | zero => rfl
  | succ m ih =>
      rw [List.range_succ, List.foldl_append]
      simp only [List.foldl_cons, List.foldl_nil, fillRow]
      rw [fillRowN_untouched body T _ _ _ _ (Or.inl (by omega))]
      exact ih (by omega)

/-- Row `j` keeps its values once the outer loop has passed it. -/
theorem fillTableN_stable (m j t' : ℕ) (T : ℕ) (h : j < m) :
    (List.range m).foldl (fillRow body T) (initTable C) j t'
      = (List.range (j+1)).foldl (fillRow body T) (initTable C) j t' := by
  induction m with
  | zero => omega
  | succ m ih =>
      rcases Nat.lt_or_ge j m with hlt | hge
      · rw [List.range_succ, List.foldl_append]
        simp only [List.foldl_cons, List.foldl_nil, fillRow]
        rw [fillRowN_untouched body T _ _ _ _ (Or.inl (by omega))]
        exact ih hlt
      · have : j = m := by omega
        subst this; rfl

/-- Cells outside the `k × T` bounds are never written and hold `0`. -/
theorem fillTable_out_of_bounds (k T j t : ℕ) (h : k ≤ j ∨ T ≤ t) :
    fillTable body k T j t = 0 := by
  rcases Nat.lt_or_ge j k with hj | hj
  · have hT : T ≤ t := by omega
    unfold fillTable
    rw [fillTableN_stable body k j t T hj, List.range_succ, List.foldl_append]
    simp only [List.foldl_cons, List.foldl_nil, fillRow]
    rw [fillRowN_untouched body T _ _ _ _ (Or.inr hT)]
    exact fillTableN_untouched body j T j t (le_refl j)
  · exact fillTableN_untouched body k T j t hj

/-- Master characterisation of the fill: each in-bounds cell holds its
body evaluated on the *partially filled* table `visibleAt`, in which
cells later in the fill order (in particular, every row above the
current one) still hold the initial `0`, and a failed body gives `⊤`. -/
theorem fillTable_eq_body (k T j t : ℕ) (hj : j < k) (ht : t < T) :
    fillTable body k T j t
      = (body (visibleAt (fillTable body k T) j t) j t).getD ⊤ := by
  have hrow : ∀ t', fillTable body k T j t'
      = fillRow body T ((List.range j).foldl (fillRow body T) (initTable C)) j j t' := by
    intro t'
    unfold fillTable
    rw [fillTableN_stable body k j t' T hj, List.range_succ, List.foldl_append]
    simp only [List.foldl_cons, List.foldl_nil]
  have hval : fillTable body k T j t
      = (body ((List.range t).foldl (cellStep body j)
          ((List.range j).foldl (fillRow body T) (initTable C))) j t).getD ⊤ := by
    rw [hrow t]
    unfold fillRow
    rw [fillRowN_stable body T t _ j ht, fillRowN_write]
  rw [hval]
  have harg : (List.range t).foldl (cellStep body j)
      ((List.range j).foldl (fillRow body T) (initTable C))
      = visibleAt (fillTable body k T) j t := by
    funext l τ
    by_cases hl : l < j
    · -- a fully processed earlier row: final value
      have h1 : (List.range t).foldl (cellStep body j)
          ((List.range j).foldl (fillRow body T) (initTable C)) l τ
          = (List.range j).foldl (fillRow body T) (initTable C) l τ :=
        fillRowN_untouched body t _ j l τ (Or.inl (by omega))
      have h2 : (List.range j).foldl (fillRow body T) (initTable C) l τ
          = fillTable body k T l τ := by
        unfold fillTable
        rw [fillTableN_stable body k l τ T (by omega),
            fillTableN_stable body j l τ T (by omega)]
      simp [visibleAt, hl, h1, h2]
    · by_cases hlj : l = j
      · subst hlj
        by_cases hτ : τ < t
        · -- same row, already written this pass: final value
          have h1 : (List.range t).foldl (cellStep body l)
              ((List.range l).foldl (fillRow body T) (initTable C)) l τ
              = (List.range (τ+1)).foldl (cellStep body l)
                  ((List.range l).foldl (fillRow body T) (initTable C)) l τ :=
            fillRowN_stable body t τ _ l hτ
          have h2 : fillTable body k T l τ
              = (List.range (τ+1)).foldl (cellStep body l)
                  ((List.range l).foldl (fillRow body T) (initTable C)) l τ := by
            rw [hrow τ]
            unfold fillRow
            rcases Nat.lt_or_ge τ T with hτT | hτT
            · rw [fillRowN_stable body T τ _ l hτT]
            · omega
          simp [visibleAt, hτ, h1, h2.symm]
        · -- same row, not yet written: initial 0
          have h1 : (List.range t).foldl (cellStep body l)
              ((List.range l).foldl (fillRow body T) (initTable C)) l τ
              = (List.range l).foldl (fillRow body T) (initTable C) l τ :=
            fillRowN_untouched body t _ l l τ (Or.inr (by omega))
          have h2 : (List.range l).foldl (fillRow body T) (initTable C) l τ = 0 :=
            fillTableN_untouched body l T l τ (le_refl l)
          simp [visibleAt, hτ, h1, h2]
      · -- a later row: initial 0
        have hgt : j < l := by omega
        have h1 : (List.range t).foldl (cellStep body j)
            ((List.range j).foldl (fillRow body T) (initTable C)) l τ
            = (List.range j).foldl (fillRow body T) (initTable C) l τ :=
          fillRowN_untouched body t _ j l τ (Or.inl (by omega))
        have h2 : (List.range j).foldl (fillRow body T) (initTable C) l τ = 0 :=
          fillTableN_untouched body j T l τ (by omega)
        simp [visibleAt, hl, hlj, h1, h2]
  rw [harg]

end FillLemmas

/-! ## Lemmas about `argmin` and the decoder -/

theorem argmin_nil {C : Type} [LinearOrder C] : argmin ([] : List C) = none := rfl

theorem argmin_singleton {C : Type} [LinearOrder C] (x : C) :
    argmin [x] = some 0 := rfl

theorem argminAux_lt {C : Type} [LinearOrder C] (xs : List C) :
    ∀ (best : ℕ × C) (i N : ℕ), best.1 < N → i + xs.length ≤ N →
      argminAux best i xs < N := by
  induction xs with
  | nil => intro best i N hb _; exact hb
  | cons x xs ih =>
      intro best i N hb hlen
      simp only [argminAux]
      by_cases hx : x < best.2
      · simp only [hx, if_true]
        exact ih (i, x) (i+1) N (by simp at hlen ⊢; omega) (by simp at hlen ⊢; omega)
      · simp only [hx, if_false]
        exact ih best (i+1) N hb (by simp at hlen ⊢; omega)

theorem argmin_lt_length {C : Type} [LinearOrder C] (l : List C) (i : ℕ)
    (h : argmin l = some i) : i < l.length := by
  cases l with
  | nil => simp [argmin] at h
  | cons x xs =>
      simp only [argmin, Option.some_inj] at h
      subst h
      exact argminAux_lt xs (0, x) 1 (xs.length + 1) (by omega) (by omega)

theorem mapM_eq_some {α β : Type} (l : List α) (f : α → Option β) (g : α → β)
    (h : ∀ x ∈ l, f x = some (g x)) : l.mapM f = some (l.map g) := by
  induction l with
  | nil => rfl
  | cons x xs ih =>
      rw [List.mapM_cons, h x (by simp), ih (fun y hy => h y (by simp [hy]))]
      rfl

/-- With a single state the extraction argmin sees one-element columns,
so every decoded state is `0`, whatever the cost values are. -/
theorem forward_k1 (X : List ℚ) (s gamma : ℝ) (h : ¬ X.sum < 0) :
    forward X s gamma 1 = some (List.replicate X.length 0) := by
  unfold forward
  rw [if_neg h]
  have : ∀ t ∈ List.range X.length,
      argmin ((List.range 1).map (fun j => forwardTable X s gamma 1 j t))
        = some ((fun _ => 0) t) := by
    intro t _
    have h1 : List.range 1 = [0] := rfl
    rw [h1, List.map_cons, List.map_nil, argmin_singleton]
  rw [mapM_eq_some _ _ _ this, List.map_const', List.length_range]

/-- With zero states the extraction argmin sees empty columns and the
whole extraction fails, exactly as the Python `min` of an empty list
raises and `states` becomes `None`. -/
theorem forward_k0 (X : List ℚ) (s gamma : ℝ) (h : X ≠ []) :
    forward X s gamma 0 = none := by
  unfold forward
  by_cases hs : X.sum < 0
  · rw [if_pos hs]
  · rw [if_neg hs]
    obtain ⟨m, hm⟩ : ∃ m, X.length = m + 1 := by
      cases X with
      | nil => exact absurd rfl h
      | cons x xs => exact ⟨xs.length, rfl⟩
    rw [hm, List.range_succ_eq_map, List.mapM_cons]
    simp [argmin_nil]

/-! ## List helpers -/

theorem lookup_cons_self {α β : Type} [BEq α] [LawfulBEq α] (x : α) (v : β)
    (l : List (α × β)) : ((x, v) :: l).lookup x = some v := by
  simp [List.lookup]

theorem lookup_cons_ne {α β : Type} [BEq α] [LawfulBEq α] (x y : α) (v : β)
    (l : List (α × β)) (h : x ≠ y) :
    ((y, v) :: l).lookup x = l.lookup x := by
  have hb : (x == y) = false := beq_false_of_ne h
  simp [List.lookup, hb]

theorem lookup_append_of_not_mem {α β : Type} [BEq α] [LawfulBEq α]
    (l₁ l₂ : List (α × β)) (x : α)
    (h : x ∉ l₁.map Prod.fst) : (l₁ ++ l₂).lookup x = l₂.lookup x := by
  induction l₁ with
  | nil => rfl
  | cons p l ih =>
      simp only [List.map_cons, List.mem_cons] at h
      push_neg at h
      rw [List.cons_append, lookup_cons_ne _ _ _ _ (by
        cases p; exact h.1)]
      exact ih h.2

theorem lookup_map_self {β : Type} (features : List ℕ) (g : ℕ → β) (f : ℕ)
    (hf : f ∈ features) :
    (features.map (fun x => (x, g x))).lookup f = some (g f) := by
  induction features with
  | nil => simp at hf
  | cons x xs ih =>
      rw [List.map_cons]
      by_cases hfx : f = x
      · subst hfx; exact lookup_cons_self ..
      · rw [lookup_cons_ne _ _ _ _ hfx]
        exact ih (by rcases List.mem_cons.mp hf with h | h; exact absurd h hfx; exact h)

theorem getLast?_replicate_succ (m : ℕ) (a : ℤ) :
    (List.replicate (m+1) a).getLast? = some a := by
  induction m with
  | zero => rfl
  | succ m ih =>
      rw [List.replicate_succ, List.getLast?_cons, ih]
      rfl

theorem getLastD_append_replicate (l : List ℤ) (m : ℕ) (a d : ℤ) (hm : 0 < m) :
    (l ++ List.replicate m a).getLastD d = a := by
  obtain ⟨m', rfl⟩ : ∃ m', m = m' + 1 := ⟨m - 1, by omega⟩
  rw [List.getLastD_eq_getLast?, List.getLast?_append, getLast?_replicate_succ]
  rfl

theorem getLastD_append_singleton (l : List ℤ) (a d : ℤ) :
    (l ++ [a]).getLastD d = a := by
  have : [a] = List.replicate 1 a := rfl
  rw [this]
  exact getLastD_append_replicate l 1 a d (by omega)

/-! ## The fan-out partition (claim C2) -/

/-- The chunks are consecutive slices, so their concatenation is an
initial segment of the feature list: exactly the first
`(W+1) * (F / W)` features. -/
theorem chunks_flatten (features : List ℕ) (L m : ℕ) :
    ((List.range m).map (fun i => chunk features L i)).flatten
      = features.take (m * L) := by
  induction m with
  | zero => simp
  | succ m ih =>
      rw [List.range_succ, List.map_append, List.flatten_append]
      rw [ih, Nat.succ_mul, List.take_add]
      simp [chunk]

/-- Claim C2 (amended): the `workers+1` contiguous chunks of size
`⌊F/W⌋` concatenate to exactly the first `(W+1)·⌊F/W⌋` features — never
a duplicate (for a duplicate-free input the chunks are pairwise
disjoint) — and they cover the whole feature list exactly when
`F mod W ≤ ⌊F/W⌋`; otherwise the trailing features are dropped. -/
theorem chunk_partition (features : List ℕ) (W : ℕ) (hW : 1 < W) :
    ((List.range (W+1)).map (fun i =>
        chunk features (features.length / W) i)).flatten
      = features.take ((W+1) * (features.length / W))
    ∧ (features.Nodup →
        ((List.range (W+1)).map (fun i =>
          chunk features (features.length / W) i)).Pairwise List.Disjoint)
    ∧ (features.length % W ≤ features.length / W →
        ((List.range (W+1)).map (fun i =>
          chunk features (features.length / W) i)).flatten = features)
    ∧ (features.length / W < features.length % W →
        ((List.range (W+1)).map (fun i =>
          chunk features (features.length / W) i)).flatten.length
          < features.length) := by
  have hflat := chunks_flatten features (features.length / W) (W+1)
  have hmod := Nat.div_add_mod features.length W
  refine ⟨hflat, ?_, ?_, ?_⟩
  · intro hnd
    have hnodup : (((List.range (W+1)).map (fun i =>
        chunk features (features.length / W) i)).flatten).Nodup := by
      rw [hflat]
      exact hnd.sublist (List.take_sublist ..)
    exact (List.nodup_flatten.mp hnodup).2
  · intro hcov
    rw [hflat]
    apply List.take_of_length_le
    have : W * (features.length / W) + features.length % W = features.length := hmod
    have h2 : (W+1) * (features.length / W)
        = W * (features.length / W) + features.length / W := by ring
    omega
  · intro hdrop
    rw [hflat]
    have hlen : (features.take ((W+1) * (features.length / W))).length
        = min ((W+1) * (features.length / W)) features.length := by
      simp
    have h2 : (W+1) * (features.length / W)
        = W * (features.length / W) + features.length / W := by ring
    omega

/-- Claim C2 (counterexample to the claim as stated): with the default
`workers = 5` and seven features, `len_per_worker = 1` and the six
chunks `features[0:1] ... features[5:6]` cover only the first six
features; feature `6` is dropped, so the merged map does *not* have the
input features as keys. -/
theorem chunk_drops_feature :
    (6 : ℕ) ∈ [0, 1, 2, 3, 4, 5, 6]
    ∧ (6 : ℕ) ∉ ((List.range (5+1)).map (fun i =>
        chunk [0, 1, 2, 3, 4, 5, 6] ([0, 1, 2, 3, 4, 5, 6].length / 5) i)).flatten := by
  decide

/-- Witness for `chunk_partition` at seven features, five workers. -/
theorem chunk_partition_witness :
    ((List.range (5+1)).map (fun i =>
        chunk [0, 1, 2, 3, 4, 5, 6] ([0, 1, 2, 3, 4, 5, 6].length / 5) i)).flatten
      = [0, 1, 2, 3, 4, 5, 6].take ((5+1) * ([0, 1, 2, 3, 4, 5, 6].length / 5)) :=
  (chunk_partition [0, 1, 2, 3, 4, 5, 6] 5 (by decide)).1

/-! ## The event-sequence builder: shape and spec equivalence -/

/-- Every loop iteration appends to both lists, one date per gap. -/
theorem fbStep_shape (st : List ℚ × List ℤ) (p : ℤ × ℕ) :
    ∃ δq δd, fbStep st p = (st.1 ++ δq, st.2 ++ δd)
      ∧ δq.length = δd.length := by
  by_cases h0 : p.2 = 0
  · refine ⟨[], [], ?_, rfl⟩
    unfold fbStep
    rw [if_pos h0]
    simp
  · by_cases h1 : 1 < p.2
    · by_cases hc : p.1 = st.2.getLastD 0 + 1
      · refine ⟨List.replicate p.2 (1 / (p.2 : ℚ)), List.replicate p.2 p.1,
          ?_, by simp⟩
        unfold fbStep
        rw [if_neg h0, if_pos h1, if_pos hc]
      · refine ⟨((p.1 : ℚ) - (st.2.getLastD 0 : ℚ))
            :: List.replicate (p.2 - 1) (1 / ((p.2 : ℚ) - 1)),
          List.replicate p.2 p.1, ?_, by simp; omega⟩
        unfold fbStep
        rw [if_neg h0, if_pos h1, if_neg hc]
    · refine ⟨[(p.1 : ℚ) - (st.2.getLastD 0 : ℚ)], [p.1], ?_, by simp⟩
      unfold fbStep
      rw [if_neg h0, if_neg h1]

/-- The builder fold only appends: the final pair extends the initial
state, with equally many new gaps and new dates. -/
theorem foldl_fbStep_shape (dist : List (ℤ × ℕ)) :
    ∀ (X0 : List ℚ) (d0 : List ℤ),
      ∃ Δq Δd, dist.foldl fbStep (X0, d0) = (X0 ++ Δq, d0 ++ Δd)
        ∧ Δq.length = Δd.length := by
  induction dist with
  | nil => exact fun X0 d0 => ⟨[], [], by simp, rfl⟩
  | cons p rest ih =>
      intro X0 d0
      obtain ⟨δq, δd, hstep, hlen⟩ := fbStep_shape (X0, d0) p
      obtain ⟨Δq, Δd, hfold, hlen2⟩ := ih (X0 ++ δq) (d0 ++ δd)
      refine ⟨δq ++ Δq, δd ++ Δd, ?_, by simp [hlen, hlen2]⟩
      rw [List.foldl_cons, hstep, hfold, List.append_assoc, List.append_assoc]

theorem buildX_fst_length (d0 : List ℤ) (dist : List (ℤ × ℕ)) :
    1 ≤ (buildX d0 dist).1.length := by
  obtain ⟨Δq, Δd, h, _⟩ := foldl_fbStep_shape dist [1] d0
  unfold buildX
  rw [h]
  simp

theorem decoderInput_ne_nil (d0 : List ℤ) (dist : List (ℤ × ℕ)) :
    decoderInput d0 dist ≠ [] := by
  have := buildX_fst_length d0 dist
  unfold decoderInput
  intro hc
  rw [List.map_eq_nil_iff] at hc
  rw [hc] at this
  simp at this

/-- The `dates` list returned by `fbCore` is the final `dates` of the
builder fold (both branches of the decode match return it). -/
theorem fbCore_dates (d0 : List ℤ) (dist : List (ℤ × ℕ)) (k : ℕ)
    (nm : Bool) (s gamma : ℝ) :
    (fbCore d0 dist k nm s gamma).2 = (buildX d0 dist).2 := by
  unfold fbCore
  cases h : forward (decoderInput d0 dist) s gamma k <;> simp [h]

/-- The accumulator of the wrapper fold splits off. -/
theorem wrapper_acc (c : Corpus) (fs : List ℕ) (k : ℕ) (nm : Bool)
    (s gamma : ℝ) :
    ∀ (B0 : List (ℕ × Option (List ℤ × List ℝ))) (d0 : List ℤ),
      fs.foldl (fun acc f =>
          let r := fbCore acc.2 (c.dist f) k nm s gamma
          (acc.1 ++ [(f, r.1)], r.2)) (B0, d0)
        = (B0 ++ (wrapper c d0 fs k nm s gamma).1,
           (wrapper c d0 fs k nm s gamma).2) := by
  induction fs with
  | nil => intro B0 d0; simp [wrapper]
  | cons f fs ih =>
      intro B0 d0
      rw [List.foldl_cons]
      show fs.foldl _ (B0 ++ [(f, _)], (fbCore d0 (c.dist f) k nm s gamma).2) = _
      rw [ih]
      have hw : wrapper c d0 (f :: fs) k nm s gamma
          = fs.foldl (fun acc f =>
              let r := fbCore acc.2 (c.dist f) k nm s gamma
              (acc.1 ++ [(f, r.1)], r.2))
            ([(f, (fbCore d0 (c.dist f) k nm s gamma).1)],
             (fbCore d0 (c.dist f) k nm s gamma).2) := rfl
      rw [hw, ih]
      simp

/-- Unfolding one wrapper step: the head feature is computed against the
incoming `dates` list, and the *grown* list is what the remaining
features see. -/
theorem wrapper_cons (c : Corpus) (d0 : List ℤ) (f : ℕ) (fs : List ℕ)
    (k : ℕ) (nm : Bool) (s gamma : ℝ) :
    wrapper c d0 (f :: fs) k nm s gamma
      = ((f, (fbCore d0 (c.dist f) k nm s gamma).1)
          :: (wrapper c (fbCore d0 (c.dist f) k nm s gamma).2 fs k nm s gamma).1,
         (wrapper c (fbCore d0 (c.dist f) k nm s gamma).2 fs k nm s gamma).2) := by
  have hw : wrapper c d0 (f :: fs) k nm s gamma
      = fs.foldl (fun acc f =>
          let r := fbCore acc.2 (c.dist f) k nm s gamma
          (acc.1 ++ [(f, r.1)], r.2))
        ([(f, (fbCore d0 (c.dist f) k nm s gamma).1)],
         (fbCore d0 (c.dist f) k nm s gamma).2) := rfl
  rw [hw, wrapper_acc]
  simp

/-- Claim C10: `feature_burstness` appends to the very `dates` list it
is handed — the returned list is the input list extended by one new
entry per generated gap (the initial synthetic gap reuses the existing
padding entry) — and `feature_burstness_wrapper` hands that grown list,
not a fresh `[min date - 1]` padding list, to the next feature of the
chunk. -/
theorem dates_list_mutation (c : Corpus) (dates0 : List ℤ)
    (dist : List (ℤ × ℕ)) (f : ℕ) (fs : List ℕ) (k : ℕ) (nm : Bool)
    (s gamma : ℝ) :
    (∃ Δ : List ℤ, (fbCore dates0 dist k nm s gamma).2 = dates0 ++ Δ
        ∧ (buildX dates0 dist).1.length = 1 + Δ.length)
    ∧ wrapper c dates0 (f :: fs) k nm s gamma
        = ((f, (fbCore dates0 (c.dist f) k nm s gamma).1)
            :: (wrapper c (fbCore dates0 (c.dist f) k nm s gamma).2 fs k nm s gamma).1,
           (wrapper c (fbCore dates0 (c.dist f) k nm s gamma).2 fs k nm s gamma).2) := by
  constructor
  · obtain ⟨Δq, Δd, h, hlen⟩ := foldl_fbStep_shape dist [1] dates0
    refine ⟨Δd, ?_, ?_⟩
    · rw [fbCore_dates]
      unfold buildX
      rw [h]
    · unfold buildX
      rw [h]
      simp only [List.length_append, List.length_cons, List.length_nil]
      omega
  · exact wrapper_cons ..

/-! ## The gap sequence vs the spec wording (claim C5) -/

/-- The builder fold computes exactly the spec gap sequence, tracking
the previous date through the last element of the `dates` list. -/
theorem foldl_fbStep_spec (dist : List (ℤ × ℕ)) :
    ∀ (X0 : List ℚ) (dates : List ℤ), dates ≠ [] →
      (dist.foldl fbStep (X0, dates)).1
        = X0 ++ specGapsAux (dates.getLastD 0) dist := by
  induction dist with
  | nil => intro X0 dates _; simp [specGapsAux]
  | cons p rest ih =>
      intro X0 dates hne
      obtain ⟨date, count⟩ := p
      rw [List.foldl_cons]
      by_cases h0 : count = 0
      · have hstep : fbStep (X0, dates) (date, count) = (X0, dates) := by
          unfold fbStep
          rw [if_pos h0]
        rw [hstep, ih X0 dates hne]
        simp only [specGapsAux]
        rw [if_pos h0]
      · by_cases h1 : 1 < count
        · have h1' : count ≠ 1 := by omega
          by_cases hc : date = dates.getLastD 0 + 1
          · have hstep : fbStep (X0, dates) (date, count)
                = (X0 ++ List.replicate count (1 / (count : ℚ)),
                   dates ++ List.replicate count date) := by
              unfold fbStep
              rw [if_neg h0, if_pos h1, if_pos hc]
            rw [hstep, ih _ _ (fun hcon => hne (List.append_eq_nil.mp hcon).1),
                getLastD_append_replicate _ _ _ _ (by omega)]
            simp only [specGapsAux]
            rw [if_neg h0, if_neg h1', if_pos hc, List.append_assoc]
          · have hstep : fbStep (X0, dates) (date, count)
                = (X0 ++ ((date : ℚ) - (dates.getLastD 0 : ℚ))
                      :: List.replicate (count - 1) (1 / ((count : ℚ) - 1)),
                   dates ++ List.replicate count date) := by
              unfold fbStep
              rw [if_neg h0, if_pos h1, if_neg hc]
            rw [hstep, ih _ _ (fun hcon => hne (List.append_eq_nil.mp hcon).1),
                getLastD_append_replicate _ _ _ _ (by omega)]
            simp only [specGapsAux]
            rw [if_neg h0, if_neg h1', if_neg hc, List.append_assoc]
        · have hcount : count = 1 := by omega
          subst hcount
          have hstep : fbStep (X0, dates) (date, 1)
              = (X0 ++ [(date : ℚ) - (dates.getLastD 0 : ℚ)], dates ++ [date]) := by
            unfold fbStep
            rw [if_neg h0, if_neg h1]
          rw [hstep, ih _ _ (fun hcon => hne (List.append_eq_nil.mp hcon).1),
              getLastD_append_singleton]
          simp [specGapsAux]

/-- Claim C5: for every distribution and padding date, the gap list
handed to `_forward` is exactly the spec gap sequence — the synthetic
initial `1.0`, then the per-pair gaps, every gap scaled by `100`. -/
theorem decoderInput_eq_spec (pad : ℤ) (dist : List (ℤ × ℕ)) :
    decoderInput [pad] dist = (specGaps pad dist).map (fun x => x * 100) := by
  unfold decoderInput buildX specGaps
  rw [foldl_fbStep_spec dist [1] [pad] (by simp)]
  rfl

/-! ## Decode failure handling (claim C4) -/

/-- When the decoder yields no state sequence, `feature_burstness`
returns `None`. -/
theorem fbCore_none (d0 : List ℤ) (dist : List (ℤ × ℕ)) (k : ℕ)
    (nm : Bool) (s gamma : ℝ)
    (hfail : forward (decoderInput d0 dist) s gamma k = none) :
    (fbCore d0 dist k nm s gamma).1 = none := by
  unfold fbCore
  rw [hfail]

/-- Claim C4 (amended): a feature whose decode fails is *not* omitted
from the result map of `burstness` (sequential path): it stays a key,
mapped to the null value `None` — not to a zero or empty series. -/
theorem undecodable_feature_mapped_to_none (c : Corpus) (features : List ℕ)
    (f : ℕ) (k : ℕ) (nm : Bool) (s gamma : ℝ) (hf : f ∈ features)
    (hfail : forward (decoderInput [c.minDate - 1] (c.dist f)) s gamma k = none) :
    (burstness c features k 1 nm s gamma).lookup f = some none := by
  unfold burstness
  rw [if_pos rfl, lookup_map_self _ _ _ hf]
  unfold feature_burstness
  rw [fbCore_none _ _ _ _ _ _ hfail]

/-- Claim C4 (counterexample to the claim as stated): with `k = 0` the
extraction fails for the single feature `7`, yet `burstness` returns a
map in which `7` *is* a key, mapped to `None`. -/
theorem undecodable_feature_is_key :
    feature_burstness tinyCorpus 7 0 true 1.1 1 = none
    ∧ burstness tinyCorpus [7] 0 1 true 1.1 1 = [(7, none)] := by
  have hfail : forward (decoderInput [tinyCorpus.minDate - 1]
      (tinyCorpus.dist 7)) 1.1 1 0 = none :=
    forward_k0 _ _ _ (decoderInput_ne_nil _ _)
  constructor
  · unfold feature_burstness
    rw [fbCore_none _ _ _ _ _ _ hfail]
  · unfold burstness
    rw [if_pos rfl, List.map_cons, List.map_nil]
    unfold feature_burstness
    rw [fbCore_none _ _ _ _ _ _ hfail]

/-- Witness for `undecodable_feature_mapped_to_none`. -/
theorem undecodable_feature_witness :
    (burstness tinyCorpus [7] 0 1 true 1.1 1).lookup 7 = some none :=
  undecodable_feature_mapped_to_none tinyCorpus [7] 7 0 true 1.1 1
    (by decide) (forward_k0 _ _ _ (decoderInput_ne_nil _ _))

/-! ## The `k = 1` decoder (claim C9) and score normalisation (claim C6) -/

theorem mean_of_zeros (l : List ℕ) (h : ∀ x ∈ l, x = 0) : mean l = 0 := by
  unfold mean
  rw [List.sum_eq_zero h]
  simp

theorem mean_nonneg (l : List ℕ) : 0 ≤ mean l := by
  unfold mean
  positivity

theorem mean_le_of_forall_le (l : List ℕ) (a : ℕ) (hne : l ≠ [])
    (h : ∀ x ∈ l, x ≤ a) : mean l ≤ a := by
  unfold mean
  have hlen : 0 < (l.length : ℝ) := by
    have : 0 < l.length := List.length_pos.mpr hne
    exact_mod_cast this
  rw [div_le_iff₀ hlen]
  have hsum : l.sum ≤ l.length * a := by
    calc l.sum ≤ l.length • a := List.sum_le_card_nsmul l a h
    _ = l.length * a := smul_eq_mul ..
  calc (l.sum : ℝ) ≤ (l.length * a : ℕ) := by exact_mod_cast hsum
  _ = (a : ℝ) * l.length := by push_cast; ring

theorem mapM_some_inv {α β : Type} (l : List α) (f : α → Option β) :
    ∀ out : List β, l.mapM f = some out →
      out.length = l.length ∧ ∀ y ∈ out, ∃ x ∈ l, f x = some y := by
  induction l with
  | nil =>
      intro out h
      have : out = [] := by
        simp only [List.mapM_nil] at h
        exact (Option.some_inj.mp h).symm
      subst this
      exact ⟨rfl, by simp⟩
  | cons x xs ih =>
      intro out h
      rw [List.mapM_cons] at h
      cases hx : f x with
      | none => rw [hx] at h; simp at h
      | some y =>
          rw [hx] at h
          cases hxs : xs.mapM f with
          | none => rw [hxs] at h; simp at h
          | some ys =>
              rw [hxs] at h
              have hout : y :: ys = out := by simpa using h
              subst hout
              obtain ⟨hlen, hmem⟩ := ih ys hxs
              refine ⟨by simp [hlen], ?_⟩
              intro z hz
              rcases List.mem_cons.mp hz with hz | hz
              · exact ⟨x, by simp, by rw [hx, hz]⟩
              · obtain ⟨w, hw, hfw⟩ := hmem z hz
                exact ⟨w, by simp [hw], hfw⟩

/-- A decoded state sequence has one state per gap, each in
`[0, k-1]`. -/
theorem forward_states_bound (X : List ℚ) (s gamma : ℝ) (k : ℕ)
    (st : List ℕ) (h : forward X s gamma k = some st) :
    st.length = X.length ∧ ∀ y ∈ st, y < k := by
  unfold forward at h
  by_cases hs : X.sum < 0
  · rw [if_pos hs] at h; simp at h
  · rw [if_neg hs] at h
    obtain ⟨hlen, hmem⟩ := mapM_some_inv _ _ _ h
    refine ⟨by simpa using hlen, ?_⟩
    intro y hy
    obtain ⟨t, _, hat⟩ := hmem y hy
    have := argmin_lt_length _ _ hat
    simpa using this

/-- Claim C9: for `k = 1` the decoded state sequence is `0` everywhere,
and every normalised score `feature_burstness` returns is `0`. -/
theorem k1_states_and_scores_zero (X : List ℚ) (s gamma : ℝ)
    (hX : ¬ X.sum < 0) (dates0 : List ℤ) (dist : List (ℤ × ℕ)) :
    forward X s gamma 1 = some (List.replicate X.length 0)
    ∧ ∀ r, (fbCore dates0 dist 1 true s gamma).1 = some r →
        ∀ x ∈ r.2, x = 0 := by
  refine ⟨forward_k1 X s gamma hX, ?_⟩
  intro r hr x hx
  unfold fbCore at hr
  cases hfwd : forward (decoderInput dates0 dist) s gamma 1 with
  | none => rw [hfwd] at hr; simp at hr
  | some st =>
      rw [hfwd] at hr
      simp only [Option.some_inj] at hr
      have hst : ∀ y ∈ st, y = 0 := by
        intro y hy
        have := (forward_states_bound _ _ _ _ _ hfwd).2 y hy
        omega
      rw [← hr] at hx
      simp only at hx
      obtain ⟨d, _, hd⟩ := List.mem_map.mp hx
      have hbz : ∀ y ∈ bucket (buildX dates0 dist).2 st
          (buildX dates0 dist).1.length d, y = 0 := by
        intro y hy
        unfold bucket at hy
        obtain ⟨i, hi, hyi⟩ := List.mem_map.mp hy
        have hilen : i < (buildX dates0 dist).1.length :=
          List.mem_range.mp (List.mem_filter.mp hi).1
        have hstlen : st.length = (buildX dates0 dist).1.length := by
          have := (forward_states_bound _ _ _ _ _ hfwd).1
          unfold decoderInput at this
          simpa using this
        have : st.getD i 0 ∈ st := by
          have hlt : i < st.length := by omega
          rw [List.getD_eq_getElem?_getD, List.getElem?_eq_getElem hlt]
          exact List.getElem_mem hlt
        rw [← hyi]
        exact hst _ this
      rw [← hd]
      simp only [if_true]
      rw [mean_of_zeros _ hbz]
      simp

/-- Witness for `k1_states_and_scores_zero`. -/
theorem k1_witness :
    forward [(1 : ℚ)] 1.1 1 1 = some [0] := by
  have h := (k1_states_and_scores_zero [(1 : ℚ)] 1.1 1 (by norm_num)
    [1999] [(2000, 1)]).1
  simpa using h

/-- Claim C6: with normalisation requested, every returned score is the
arithmetic mean of the decoded states sharing that date divided by `k`
(not `k-1`); since every state lies in `[0, k-1]`, every score lies in
`[0, (k-1)/k]` and is strictly below `1`. -/
theorem normalized_scores_bounded (dates0 : List ℤ) (dist : List (ℤ × ℕ))
    (k : ℕ) (s gamma : ℝ) (hk : 0 < k) :
    ∀ r, (fbCore dates0 dist k true s gamma).1 = some r →
      ∀ x ∈ r.2, ∃ st d,
        forward (decoderInput dates0 dist) s gamma k = some st
        ∧ x = mean (bucket (buildX dates0 dist).2 st
            (buildX dates0 dist).1.length d) / k
        ∧ bucket (buildX dates0 dist).2 st (buildX dates0 dist).1.length d ≠ []
        ∧ (∀ y ∈ bucket (buildX dates0 dist).2 st
            (buildX dates0 dist).1.length d, y < k)
        ∧ 0 ≤ x ∧ x ≤ ((k : ℝ) - 1) / k ∧ x < 1 := by
  intro r hr x hx
  unfold fbCore at hr
  cases hfwd : forward (decoderInput dates0 dist) s gamma k with
  | none => rw [hfwd] at hr; simp at hr
  | some st =>
      rw [hfwd] at hr
      simp only [Option.some_inj] at hr
      rw [← hr] at hx
      simp only at hx
      obtain ⟨d, hdmem, hd⟩ := List.mem_map.mp hx
      have hstlen : st.length = (buildX dates0 dist).1.length := by
        have := (forward_states_bound _ _ _ _ _ hfwd).1
        unfold decoderInput at this
        simpa using this
      -- the bucket of a key used by some index is nonempty
      have hdmem' : d ∈ usedDates (buildX dates0 dist).2
          (buildX dates0 dist).1.length := by
        have h1 : d ∈ sortedKeys (buildX dates0 dist).2
            (buildX dates0 dist).1.length := List.mem_of_mem_drop hdmem
        unfold sortedKeys at h1
        have h2 := (List.perm_insertionSort (· ≤ ·)
          ((usedDates (buildX dates0 dist).2
            (buildX dates0 dist).1.length).dedup)).mem_iff.mp h1
        exact List.mem_dedup.mp h2
      obtain ⟨i, hirange, hieq⟩ := List.mem_map.mp hdmem'
      have hifil : i ∈ (List.range (buildX dates0 dist).1.length).filter
          (fun i => (buildX dates0 dist).2.getD i 0 = d) := by
        rw [List.mem_filter]
        exact ⟨hirange, by simpa [List.getD_eq_getElem?_getD] using hieq⟩
      have hbne : bucket (buildX dates0 dist).2 st
          (buildX dates0 dist).1.length d ≠ [] := by
        unfold bucket
        intro hcon
        rw [List.map_eq_nil_iff] at hcon
        rw [hcon] at hifil
        simp at hifil
      have hblt : ∀ y ∈ bucket (buildX dates0 dist).2 st
          (buildX dates0 dist).1.length d, y < k := by
        intro y hy
        unfold bucket at hy
        obtain ⟨i', hi', hyi⟩ := List.mem_map.mp hy
        have hilen : i' < (buildX dates0 dist).1.length :=
          List.mem_range.mp (List.mem_filter.mp hi').1
        have hmem : st.getD i' 0 ∈ st := by
          have hlt : i' < st.length := by omega
          rw [List.getD_eq_getElem?_getD, List.getElem?_eq_getElem hlt]
          exact List.getElem_mem hlt
        rw [← hyi]
        exact (forward_states_bound _ _ _ _ _ hfwd).2 _ hmem
      have hxval : x = mean (bucket (buildX dates0 dist).2 st
          (buildX dates0 dist).1.length d) / k := by
        rw [← hd]
        simp
      have hkR : (0 : ℝ) < k := by exact_mod_cast hk
      have hmean0 : 0 ≤ mean (bucket (buildX dates0 dist).2 st
          (buildX dates0 dist).1.length d) := mean_nonneg _
      have hmean1 : mean (bucket (buildX dates0 dist).2 st
          (buildX dates0 dist).1.length d) ≤ ((k : ℝ) - 1) := by
        have := mean_le_of_forall_le _ (k - 1) hbne
          (fun y hy => by have := hblt y hy; omega)
        calc mean (bucket (buildX dates0 dist).2 st
            (buildX dates0 dist).1.length d) ≤ ((k - 1 : ℕ) : ℝ) := this
        _ = (k : ℝ) - 1 := by
            have : 1 ≤ k := hk
            push_cast [this]
            ring
      have hdiv : mean (bucket (buildX dates0 dist).2 st
          (buildX dates0 dist).1.length d) / k ≤ ((k : ℝ) - 1) / k := by
        apply div_le_div_of_nonneg_right hmean1 hkR.le
      refine ⟨st, d, rfl, hxval, hbne, hblt, ?_, ?_, ?_⟩
      · rw [hxval]
        positivity
      · rw [hxval]
        exact hdiv
      · rw [hxval]
        have h2 : ((k : ℝ) - 1) / k < 1 := by
          rw [div_lt_one hkR]
          linarith
        linarith

theorem buildX_tiny : buildX [1999] [(2000, 1)] = ([1, 1], [1999, 2000]) := by
  unfold buildX
  rw [List.foldl_cons, List.foldl_nil]
  unfold fbStep
  norm_num

theorem decoderInput_tiny : decoderInput [1999] [(2000, 1)] = [100, 100] := by
  unfold decoderInput
  rw [buildX_tiny]
  norm_num

theorem forward_tiny : forward (decoderInput [1999] [(2000, 1)]) 1.1 1 1
    = some [0, 0] := by
  rw [decoderInput_tiny]
  have h := forward_k1 [100, 100] 1.1 1 (by norm_num)
  simpa using h

theorem bucket_tiny : bucket [1999, 2000] [0, 0] 2 2000 = [0] := by decide

theorem sortedKeys_tiny : sortedKeys [1999, 2000] 2 = [1999, 2000] := by decide

theorem fbCore_tiny : (fbCore [1999] [(2000, 1)] 1 true 1.1 1).1
    = some ([2000], [(0 : ℝ)]) := by
  unfold fbCore
  rw [forward_tiny]
  simp only [buildX_tiny]
  have hlen : ([1, 1] : List ℚ).length = 2 := rfl
  rw [hlen, sortedKeys_tiny]
  have hdrop : ([1999, 2000] : List ℤ).drop 1 = [2000] := rfl
  rw [hdrop]
  simp only [List.map_cons, List.map_nil]
  rw [bucket_tiny, mean_of_zeros [0] (by simp)]
  norm_num

/-- Witness for `normalized_scores_bounded`, at the score `0` that the
tiny corpus produces for date `2000` with `k = 1`. -/
theorem normalized_scores_witness :
    ∃ st d,
      forward (decoderInput [1999] [(2000, 1)]) 1.1 1 1 = some st
      ∧ (0 : ℝ) = mean (bucket (buildX [1999] [(2000, 1)]).2 st
          (buildX [1999] [(2000, 1)]).1.length d) / ((1 : ℕ) : ℝ)
      ∧ bucket (buildX [1999] [(2000, 1)]).2 st
          (buildX [1999] [(2000, 1)]).1.length d ≠ []
      ∧ (∀ y ∈ bucket (buildX [1999] [(2000, 1)]).2 st
          (buildX [1999] [(2000, 1)]).1.length d, y < 1)
      ∧ (0 : ℝ) ≤ 0 ∧ (0 : ℝ) ≤ (((1 : ℕ) : ℝ) - 1) / ((1 : ℕ) : ℝ)
      ∧ (0 : ℝ) < 1 :=
  normalized_scores_bounded [1999] [(2000, 1)] 1 1.1 1 (by decide)
    ([2000], [(0 : ℝ)]) fbCore_tiny 0 (by simp)

/-! ## Fan-out vs sequential (claim C1) -/

theorem lookup_append_left {α β : Type} [BEq α] [LawfulBEq α]
    (l₁ l₂ : List (α × β)) (x : α) (v : β)
    (h : l₁.lookup x = some v) : (l₁ ++ l₂).lookup x = some v := by
  induction l₁ with
  | nil => simp [List.lookup] at h
  | cons p l ih =>
      obtain ⟨y, w⟩ := p
      by_cases hxy : x = y
      · subst hxy
        rw [lookup_cons_self] at h
        rw [List.cons_append, lookup_cons_self]
        exact h
      · rw [lookup_cons_ne _ _ _ _ hxy] at h
        rw [List.cons_append, lookup_cons_ne _ _ _ _ hxy]
        exact ih h

/-- The keys a worker returns are exactly its chunk, in order. -/
theorem wrapper_keys (c : Corpus) (k : ℕ) (nm : Bool) (s gamma : ℝ) :
    ∀ (fs : List ℕ) (d0 : List ℤ),
      (wrapper c d0 fs k nm s gamma).1.map Prod.fst = fs := by
  intro fs
  induction fs with
  | nil => intro d0; rfl
  | cons f fs ih =>
      intro d0
      rw [wrapper_cons]
      simp only [List.map_cons]
      rw [ih]

/-- The multi-worker branch of `burstness`, unfolded. -/
theorem burstness_multi (c : Corpus) (features : List ℕ) (k W : ℕ)
    (nm : Bool) (s gamma : ℝ) (hW : W ≠ 1) :
    burstness c features k W nm s gamma
      = ((List.range (W+1)).map (fun i =>
          (wrapper c [c.minDate - 1] (chunk features (features.length / W) i)
            k nm (1.1 : ℝ) (1 : ℝ)).1)).flatten := by
  unfold burstness
  rw [if_neg hW]

/-- The key list of the merged multi-worker map is the chunk
concatenation. -/
theorem burstness_multi_keys (c : Corpus) (features : List ℕ) (k W : ℕ)
    (nm : Bool) (s gamma : ℝ) (hW : W ≠ 1) :
    (burstness c features k W nm s gamma).map Prod.fst
      = ((List.range (W+1)).map (fun i =>
          chunk features (features.length / W) i)).flatten := by
  rw [burstness_multi c features k W nm s gamma hW, List.map_flatten]
  congr 1
  rw [List.map_map]
  apply List.map_congr_left
  intro i _
  exact wrapper_keys c k nm 1.1 1 _ _

/-- Looking up a chunk-initial feature in the merged multi-worker map
finds the value its worker computed against the fresh one-element
padded `dates` list. -/
theorem lookup_blocks (c : Corpus) (pad : List ℤ) (k : ℕ) (nm : Bool)
    (sw gw : ℝ) (L : ℕ) (features : List ℕ) (hnd : features.Nodup) :
    ∀ (m i : ℕ) (f : ℕ) (fs' : List ℕ), i < m →
      chunk features L i = f :: fs' →
      (((List.range m).map (fun j =>
          (wrapper c pad (chunk features L j) k nm sw gw).1)).flatten).lookup f
        = some ((fbCore pad (c.dist f) k nm sw gw).1) := by
  intro m
  induction m with
  | zero => intro i f fs' hi; omega
  | succ m ih =>
      intro i f fs' hi hchunk
      rw [List.range_succ, List.map_append, List.flatten_append]
      rcases Nat.lt_or_ge i m with him | him
      · exact lookup_append_left _ _ _ _ (ih i f fs' him hchunk)
      · have hieq : i = m := by omega
        subst hieq
        have hfmem : f ∈ chunk features L i := by rw [hchunk]; simp
        have hkeysleft : (((List.range i).map (fun j =>
            (wrapper c pad (chunk features L j) k nm sw gw).1)).flatten).map Prod.fst
            = features.take (i * L) := by
          rw [List.map_flatten, List.map_map]
          have : ((fun l => List.map Prod.fst l) ∘ fun j =>
              (wrapper c pad (chunk features L j) k nm sw gw).1)
              = fun j => chunk features L j := by
            funext j
            exact wrapper_keys c k nm sw gw _ _
          rw [this, chunks_flatten]
        have hnotin : f ∉ (((List.range i).map (fun j =>
            (wrapper c pad (chunk features L j) k nm sw gw).1)).flatten).map Prod.fst := by
          rw [hkeysleft]
          -- take (i*L) and chunk i are disjoint pieces of a nodup list
          have hjoin : features.take (i * L) ++ chunk features L i
              = features.take (i * L + L) := by
            rw [List.take_add]
            rfl
          have hnodup : (features.take (i * L + L)).Nodup :=
            hnd.sublist (List.take_sublist ..)
          rw [← hjoin] at hnodup
          have hdisj := List.disjoint_of_nodup_append hnodup
          intro hcon
          exact (hdisj hcon) hfmem
        rw [lookup_append_of_not_mem _ _ _ hnotin]
        simp only [List.map_cons, List.map_nil, List.flatten_cons,
          List.flatten_nil, List.append_nil]
        rw [hchunk, wrapper_cons]
        exact lookup_cons_self ..

/-- Claim C1 (amended): for `W > 1` the merged map keys are the chunk
concatenation — which can lack trailing features — and only a feature
that *begins* its chunk is guaranteed the same value as in the
sequential `workers = 1` run (and that under the default decode
parameters, which the multi-worker path hardcodes); features later in
a chunk are decoded against a `dates` list already grown by their
predecessors. -/
theorem fanout_vs_sequential (c : Corpus) (features : List ℕ) (k W : ℕ)
    (nm : Bool) (s gamma : ℝ) (hW : 1 < W) (hs : s = 1.1) (hg : gamma = 1)
    (hnd : features.Nodup) :
    (burstness c features k W nm s gamma).map Prod.fst
      = ((List.range (W+1)).map (fun i =>
          chunk features (features.length / W) i)).flatten
    ∧ ∀ i f fs', i < W + 1 → chunk features (features.length / W) i = f :: fs' →
        (burstness c features k W nm s gamma).lookup f
          = (burstness c features k 1 nm s gamma).lookup f := by
  have hW1 : W ≠ 1 := by omega
  constructor
  · exact burstness_multi_keys c features k W nm s gamma hW1
  · intro i f fs' hi hchunk
    have hfmem : f ∈ features := by
      have h1 : f ∈ chunk features (features.length / W) i := by
        rw [hchunk]; simp
      unfold chunk at h1
      exact ((List.take_sublist ..).trans (List.drop_sublist ..)).mem h1
    rw [burstness_multi c features k W nm s gamma hW1]
    rw [lookup_blocks c [c.minDate - 1] k nm 1.1 1 _ features hnd (W+1) i f fs' hi hchunk]
    unfold burstness
    rw [if_pos rfl, lookup_map_self _ _ _ hfmem]
    unfold feature_burstness
    rw [hs, hg]

/-- Claim C1 (counterexample to the claim as stated): same corpus, same
seven features; `workers = 1` returns a map keyed by all seven features,
`workers = 5` (the default) returns a map missing feature `6` — the two
maps are not value-for-value identical. -/
theorem workers_change_result :
    ((burstness tinyCorpus [0, 1, 2, 3, 4, 5, 6] 5 1 true 1.1 1).map Prod.fst
        = [0, 1, 2, 3, 4, 5, 6])
    ∧ ((burstness tinyCorpus [0, 1, 2, 3, 4, 5, 6] 5 5 true 1.1 1).map Prod.fst
        = [0, 1, 2, 3, 4, 5]) := by
  constructor
  · unfold burstness
    rw [if_pos rfl, List.map_map]
    have : (Prod.fst ∘ fun f => (f, feature_burstness tinyCorpus f 5 true 1.1 1))
        = id := rfl
    rw [this, List.map_id]
  · rw [burstness_multi_keys tinyCorpus [0, 1, 2, 3, 4, 5, 6] 5 5 true 1.1 1
      (by omega)]
    decide

/-- Witness for `fanout_vs_sequential`: feature `2` begins chunk `2`. -/
theorem fanout_vs_sequential_witness :
    (burstness tinyCorpus [0, 1, 2, 3, 4, 5, 6] 5 5 true 1.1 1).lookup 2
      = (burstness tinyCorpus [0, 1, 2, 3, 4, 5, 6] 5 1 true 1.1 1).lookup 2 :=
  (fanout_vs_sequential tinyCorpus [0, 1, 2, 3, 4, 5, 6] 5 5 true 1.1 1
    (by omega) rfl rfl (by decide)).2 2 2 [] (by omega) (by decide)

/-! ## Per-cell failure isolation (claim C8) -/

/-- Claim C8: a failing cell body is caught at that cell alone — the
cell is written as the infinite cost `⊤` — and every cell of the table
still receives the value of its own computation against the fill state;
the fill never aborts. -/
theorem cell_failure_isolated {C : Type} [Top C] [Zero C]
    (body : Table C → ℕ → ℕ → Option C) (k T j0 t0 : ℕ)
    (hj : j0 < k) (ht : t0 < T)
    (hfail : ∀ tbl, body tbl j0 t0 = none) :
    fillTable body k T j0 t0 = ⊤
    ∧ ∀ j t, j < k → t < T →
        fillTable body k T j t
          = (body (visibleAt (fillTable body k T) j t) j t).getD ⊤ := by
  constructor
  · rw [fillTable_eq_body body k T j0 t0 hj ht, hfail]
    rfl
  · intro j t hjk htT
    exact fillTable_eq_body body k T j t hjk htT

/-- Witness for `cell_failure_isolated`: a two-by-two table over `ℕ∞`
whose body fails at cell `(0, 1)`. -/
theorem cell_failure_isolated_witness :
    fillTable (fun tbl j t => if j = 0 ∧ t = 1 then none
      else some (tbl 0 0 + 1)) 2 2 0 1 = (⊤ : ℕ∞) :=
  (cell_failure_isolated (fun tbl j t => if j = 0 ∧ t = 1 then none
      else some (tbl 0 0 + 1)) 2 2 0 1 (by omega) (by omega)
    (fun tbl => by simp)).1

/-! ## The cost recurrence (claim C3) -/

/-- Claim C3 (amended): each in-bounds cell `(j, t)` with `t > 0` of the
`_forward` table equals the emission cost plus the minimum over all
states `l` of `V(l) +` transition cost, where `V(l)` is the final table
value `C(l, t-1)` for `l ≤ j` but the *initial array value `0`* for
`l > j`, because rows above the current one have not been filled yet. -/
theorem forwardTable_fill_recurrence (X : List ℚ) (s gamma : ℝ) (k j t : ℕ)
    (hj : j < k) (ht : 0 < t) (htT : t < X.length) (hsum : 0 < X.sum) :
    forwardTable X s gamma k j t
      = (((-1 : ℝ) * Real.log (fR X s j (X.getD t 0)) : ℝ) : WithTop ℝ)
        + colMin k (fun l =>
            (if l ≤ j then forwardTable X s gamma k l (t-1) else 0)
              + tauR X gamma l j) := by
  unfold forwardTable
  rw [fillTable_eq_body _ k X.length j t hj htT]
  unfold forwardBody
  rw [if_neg (by omega : ¬(j = 0 ∧ t = 0)), if_neg (by omega : ¬ t = 0),
    if_neg (not_le.mpr hsum)]
  simp only [Option.getD_some]
  congr 1
  unfold colMin
  congr 1
  apply List.map_congr_left
  intro l _
  congr 1
  unfold visibleAt
  by_cases hlj : l ≤ j
  · rw [if_pos (by omega), if_pos hlj]
  · rw [if_neg (by omega), if_neg hlj]

/-- Witness for `forwardTable_fill_recurrence` at `X = [1,1,1]`, `s=2`,
`gamma=1`, `k=2`, cell `(1,1)`. -/
theorem forwardTable_fill_recurrence_witness :
    forwardTable [1, 1, 1] 2 1 2 1 1
      = (((-1 : ℝ) * Real.log (fR [1, 1, 1] 2 1
            (([1, 1, 1] : List ℚ).getD 1 0)) : ℝ) : WithTop ℝ)
        + colMin 2 (fun l =>
            (if l ≤ 1 then forwardTable [1, 1, 1] 2 1 2 l 0 else 0)
              + tauR [1, 1, 1] 1 l 1) :=
  forwardTable_fill_recurrence [1, 1, 1] 2 1 2 1 1 (by omega) (by omega)
    (by simp) (by norm_num)

theorem alpha3 (j : ℕ) : alphaR [1, 1, 1] 2 j = 2 ^ j := by
  unfold alphaR
  norm_num

theorem em3_0 : (-1 : ℝ) * Real.log (fR [1, 1, 1] 2 0 1) = 1 := by
  unfold fR
  rw [alpha3]
  norm_num [Real.log_exp]

theorem em3_1 : (-1 : ℝ) * Real.log (fR [1, 1, 1] 2 1 1) = 2 - Real.log 2 := by
  unfold fR
  rw [alpha3, pow_one]
  rw [Real.log_mul two_ne_zero (Real.exp_ne_zero _), Real.log_exp]
  ring

theorem tau3_lower (l j : ℕ) (h : ¬ l < j) :
    tauR [1, 1, 1] 1 l j = ((0 : ℝ) : WithTop ℝ) := by
  unfold tauR
  rw [if_neg h]

theorem tau3_01 : tauR [1, 1, 1] 1 0 1 = ((Real.log 3 : ℝ) : WithTop ℝ) := by
  unfold tauR
  rw [if_pos (by omega)]
  norm_num

theorem colMin_two {C : Type} [LinearOrder C] [Top C] (g : ℕ → C) :
    colMin 2 g = min (g 0) (min (g 1) ⊤) := rfl

theorem F3_00 : forwardTable [1, 1, 1] 2 1 2 0 0 = ((0 : ℝ) : WithTop ℝ) := by
  unfold forwardTable
  rw [fillTable_eq_body _ 2 _ 0 0 (by omega) (by simp)]
  unfold forwardBody
  rw [if_pos ⟨rfl, rfl⟩]
  rfl

theorem F3_10 : forwardTable [1, 1, 1] 2 1 2 1 0 = (⊤ : WithTop ℝ) := by
  unfold forwardTable
  rw [fillTable_eq_body _ 2 _ 1 0 (by omega) (by simp)]
  unfold forwardBody
  rw [if_neg (by omega : ¬((1:ℕ) = 0 ∧ (0:ℕ) = 0)), if_pos rfl]
  rfl

theorem F3_01 : forwardTable [1, 1, 1] 2 1 2 0 1 = ((1 : ℝ) : WithTop ℝ) := by
  rw [forwardTable_fill_recurrence [1, 1, 1] 2 1 2 0 1 (by omega) (by omega)
    (by simp) (by norm_num), colMin_two]
  have hg0 : (if (0:ℕ) ≤ 0 then forwardTable [1, 1, 1] 2 1 2 0 0 else 0)
      + tauR [1, 1, 1] 1 0 0 = ((0 : ℝ) : WithTop ℝ) := by
    rw [if_pos (le_refl 0), F3_00, tau3_lower 0 0 (by omega)]
    rw [← WithTop.coe_add]
    norm_num
  have hg1 : (if (1:ℕ) ≤ 0 then forwardTable [1, 1, 1] 2 1 2 1 0 else 0)
      + tauR [1, 1, 1] 1 1 0 = ((0 : ℝ) : WithTop ℝ) := by
    rw [if_neg (by omega), tau3_lower 1 0 (by omega)]
    rw [show ((0 : WithTop ℝ)) = (((0:ℝ) : WithTop ℝ)) from rfl, ← WithTop.coe_add]
    norm_num
  rw [hg0, hg1]
  rw [min_eq_left (le_top), min_self]
  have hx : ([1, 1, 1] : List ℚ).getD 1 0 = 1 := rfl
  rw [hx, em3_0, ← WithTop.coe_add]
  norm_num

theorem F3_02 : forwardTable [1, 1, 1] 2 1 2 0 2 = ((1 : ℝ) : WithTop ℝ) := by
  rw [forwardTable_fill_recurrence [1, 1, 1] 2 1 2 0 2 (by omega) (by omega)
    (by simp) (by norm_num), colMin_two]
  have hg0 : (if (0:ℕ) ≤ 0 then forwardTable [1, 1, 1] 2 1 2 0 1 else 0)
      + tauR [1, 1, 1] 1 0 0 = ((1 : ℝ) : WithTop ℝ) := by
    rw [if_pos (le_refl 0), F3_01, tau3_lower 0 0 (by omega)]
    rw [← WithTop.coe_add]
    norm_num
  have hg1 : (if (1:ℕ) ≤ 0 then forwardTable [1, 1, 1] 2 1 2 1 1 else 0)
      + tauR [1, 1, 1] 1 1 0 = ((0 : ℝ) : WithTop ℝ) := by
    rw [if_neg (by omega), tau3_lower 1 0 (by omega)]
    rw [show ((0 : WithTop ℝ)) = (((0:ℝ) : WithTop ℝ)) from rfl, ← WithTop.coe_add]
    norm_num
  rw [hg0, hg1]
  rw [min_eq_left (le_top), ← WithTop.coe_min]
  have hx : ([1, 1, 1] : List ℚ).getD 2 0 = 1 := rfl
  rw [hx, em3_0, ← WithTop.coe_add]
  norm_num

theorem S3_10 : specCol [1, 1, 1] 2 1 2 1 0 = ((1 : ℝ) : WithTop ℝ) := by
  show (((-1 : ℝ) * Real.log (fR [1, 1, 1] 2 0
      (([1, 1, 1] : List ℚ).getD 1 0)) : ℝ) : WithTop ℝ)
    + colMin 2 (fun l => specCol [1, 1, 1] 2 1 2 0 l + tauR [1, 1, 1] 1 l 0)
    = ((1 : ℝ) : WithTop ℝ)
  rw [colMin_two]
  have hg0 : specCol [1, 1, 1] 2 1 2 0 0 + tauR [1, 1, 1] 1 0 0
      = ((0 : ℝ) : WithTop ℝ) := by
    show (if (0:ℕ) = 0 then ((0:ℝ) : WithTop ℝ) else ⊤) + tauR [1, 1, 1] 1 0 0
      = ((0 : ℝ) : WithTop ℝ)
    rw [if_pos rfl, tau3_lower 0 0 (by omega), ← WithTop.coe_add]
    norm_num
  have hg1 : specCol [1, 1, 1] 2 1 2 0 1 + tauR [1, 1, 1] 1 1 0
      = (⊤ : WithTop ℝ) := by
    show (if (1:ℕ) = 0 then ((0:ℝ) : WithTop ℝ) else ⊤) + tauR [1, 1, 1] 1 1 0
      = (⊤ : WithTop ℝ)
    rw [if_neg (by omega), tau3_lower 1 0 (by omega)]
    exact WithTop.top_add _
  rw [hg0, hg1]
  rw [min_self, min_eq_left le_top]
  have hx : ([1, 1, 1] : List ℚ).getD 1 0 = 1 := rfl
  rw [hx, em3_0, ← WithTop.coe_add]
  norm_num

theorem S3_11 : specCol [1, 1, 1] 2 1 2 1 1
    = ((2 - Real.log 2 + Real.log 3 : ℝ) : WithTop ℝ) := by
  show (((-1 : ℝ) * Real.log (fR [1, 1, 1] 2 1
      (([1, 1, 1] : List ℚ).getD 1 0)) : ℝ) : WithTop ℝ)
    + colMin 2 (fun l => specCol [1, 1, 1] 2 1 2 0 l + tauR [1, 1, 1] 1 l 1)
    = ((2 - Real.log 2 + Real.log 3 : ℝ) : WithTop ℝ)
  rw [colMin_two]
  have hg0 : specCol [1, 1, 1] 2 1 2 0 0 + tauR [1, 1, 1] 1 0 1
      = ((Real.log 3 : ℝ) : WithTop ℝ) := by
    show (if (0:ℕ) = 0 then ((0:ℝ) : WithTop ℝ) else ⊤) + tauR [1, 1, 1] 1 0 1
      = ((Real.log 3 : ℝ) : WithTop ℝ)
    rw [if_pos rfl, tau3_01, ← WithTop.coe_add]
    norm_num
  have hg1 : specCol [1, 1, 1] 2 1 2 0 1 + tauR [1, 1, 1] 1 1 1
      = (⊤ : WithTop ℝ) := by
    show (if (1:ℕ) = 0 then ((0:ℝ) : WithTop ℝ) else ⊤) + tauR [1, 1, 1] 1 1 1
      = (⊤ : WithTop ℝ)
    rw [if_neg (by omega), tau3_lower 1 1 (by omega)]
    exact WithTop.top_add _
  rw [hg0, hg1]
  rw [min_eq_left le_top, min_eq_left le_top]
  have hx : ([1, 1, 1] : List ℚ).getD 1 0 = 1 := rfl
  rw [hx, em3_1, ← WithTop.coe_add]

theorem S3_20 : specCol [1, 1, 1] 2 1 2 2 0 = ((2 : ℝ) : WithTop ℝ) := by
  show (((-1 : ℝ) * Real.log (fR [1, 1, 1] 2 0
      (([1, 1, 1] : List ℚ).getD 2 0)) : ℝ) : WithTop ℝ)
    + colMin 2 (fun l => specCol [1, 1, 1] 2 1 2 1 l + tauR [1, 1, 1] 1 l 0)
    = ((2 : ℝ) : WithTop ℝ)
  rw [colMin_two]
  have hg0 : specCol [1, 1, 1] 2 1 2 1 0 + tauR [1, 1, 1] 1 0 0
      = ((1 : ℝ) : WithTop ℝ) := by
    rw [S3_10, tau3_lower 0 0 (by omega), ← WithTop.coe_add]
    norm_num
  have hg1 : specCol [1, 1, 1] 2 1 2 1 1 + tauR [1, 1, 1] 1 1 0
      = ((2 - Real.log 2 + Real.log 3 : ℝ) : WithTop ℝ) := by
    rw [S3_11, tau3_lower 1 0 (by omega), ← WithTop.coe_add]
    norm_num
  rw [hg0, hg1]
  have hlog : (1 : ℝ) ≤ 2 - Real.log 2 + Real.log 3 := by
    have h23 : Real.log 2 ≤ Real.log 3 :=
      Real.log_le_log (by norm_num) (by norm_num)
    linarith
  rw [min_eq_left le_top, ← WithTop.coe_min,
    min_eq_left (by exact_mod_cast hlog : ((1:ℝ)) ≤ (2 - Real.log 2 + Real.log 3 : ℝ))]
  have hx : ([1, 1, 1] : List ℚ).getD 2 0 = 1 := rfl
  rw [hx, em3_0, ← WithTop.coe_add]
  norm_num

/-- Claim C3 (counterexample to the claim as stated): at
`X = [1,1,1]`, `s = 2`, `gamma = 1`, `k = 2`, the table cell `(0,2)`
computed by `_forward` holds `1`, while the value defined by the spec
recurrence — in which each `C(l, t-1)` is itself the recurrence value —
is `2`: when row `0` is filled, row `1` still holds the initial `0`,
which leaks into the minimisation. -/
theorem forwardTable_ne_spec_recurrence :
    forwardTable [1, 1, 1] 2 1 2 0 2 ≠ specCol [1, 1, 1] 2 1 2 2 0 := by
  rw [F3_02, S3_20]
  intro hcon
  rw [WithTop.coe_inj] at hcon
  norm_num at hcon

/-! ## The sigma calculator (claim C7) -/

theorem lookup_eq_none_of_not_mem {α β : Type} [BEq α] [LawfulBEq α]
    (l : List (α × β)) (x : α) (h : x ∉ l.map Prod.fst) :
    l.lookup x = none := by
  induction l with
  | nil => rfl
  | cons p l ih =>
      simp only [List.map_cons, List.mem_cons] at h
      push_neg at h
      rw [show p = (p.1, p.2) from rfl, lookup_cons_ne _ _ _ _ h.1]
      exact ih h.2

/-- The sigma fold with an arbitrary accumulator. -/
theorem sigmaSlice_acc (g : GraphSlice) (node_lookup : ℕ → ℕ) (key : ℤ) :
    ∀ (B : List (ℕ × (List ℤ × List ℝ))) (acc : List (ℕ × ℝ)),
      B.foldl (fun acc fb =>
        let burst := fb.2.1.zip fb.2.2
        let n := node_lookup fb.1
        if n ∈ g.nodes then
          match burst.lookup key with
          | some b => acc ++ [(n, (g.centrality n + 1) ^ b - 1)]
          | none => acc
        else acc) acc
      = acc ++ sigmaSlice g node_lookup key B := by
  intro B
  induction B with
  | nil => intro acc; simp [sigmaSlice]
  | cons fb Bs ih =>
      intro acc
      rw [List.foldl_cons]
      have hslice : sigmaSlice g node_lookup key (fb :: Bs)
          = Bs.foldl (fun acc fb =>
              let burst := fb.2.1.zip fb.2.2
              let n := node_lookup fb.1
              if n ∈ g.nodes then
                match burst.lookup key with
                | some b => acc ++ [(n, (g.centrality n + 1) ^ b - 1)]
                | none => acc
              else acc)
            (if node_lookup fb.1 ∈ g.nodes then
              match (fb.2.1.zip fb.2.2).lookup key with
              | some b => [] ++ [(node_lookup fb.1,
                  (g.centrality (node_lookup fb.1) + 1) ^ b - 1)]
              | none => ([] : List (ℕ × ℝ))
            else []) := rfl
      rw [hslice, ih, ih]
      by_cases hmem : node_lookup fb.1 ∈ g.nodes
      · cases hlk : (fb.2.1.zip fb.2.2).lookup key with
        | none => simp [hmem, hlk]
        | some b => simp [hmem, hlk]
      · simp [hmem]

/-- One step of the sigma fold, with the head pair destructured. -/
theorem sigmaSlice_cons (g : GraphSlice) (node_lookup : ℕ → ℕ) (key : ℤ)
    (fp : ℕ) (serp : List ℤ × List ℝ) (B : List (ℕ × (List ℤ × List ℝ))) :
    sigmaSlice g node_lookup key ((fp, serp) :: B)
      = (if node_lookup fp ∈ g.nodes then
          match (serp.1.zip serp.2).lookup key with
          | some b => [(node_lookup fp,
              (g.centrality (node_lookup fp) + 1) ^ b - 1)]
          | none => ([] : List (ℕ × ℝ))
        else []) ++ sigmaSlice g node_lookup key B := by
  have hslice : sigmaSlice g node_lookup key ((fp, serp) :: B)
      = B.foldl (fun acc fb =>
          let burst := fb.2.1.zip fb.2.2
          let n := node_lookup fb.1
          if n ∈ g.nodes then
            match burst.lookup key with
            | some b => acc ++ [(n, (g.centrality n + 1) ^ b - 1)]
            | none => acc
          else acc)
        (if node_lookup fp ∈ g.nodes then
          match (serp.1.zip serp.2).lookup key with
          | some b => [] ++ [(node_lookup fp,
              (g.centrality (node_lookup fp) + 1) ^ b - 1)]
          | none => ([] : List (ℕ × ℝ))
        else []) := rfl
  rw [hslice, sigmaSlice_acc]
  by_cases hmem : node_lookup fp ∈ g.nodes
  · cases hlk : (serp.1.zip serp.2).lookup key with
    | none => simp [hmem, hlk]
    | some b => simp [hmem, hlk]
  · simp [hmem]

/-- Every node key of a slice result comes from some feature of `B`
through `node_lookup`. -/
theorem sigmaSlice_keys_sub (g : GraphSlice) (node_lookup : ℕ → ℕ)
    (key : ℤ) :
    ∀ (B : List (ℕ × (List ℤ × List ℝ))) (x : ℕ),
      x ∈ (sigmaSlice g node_lookup key B).map Prod.fst →
      ∃ fb ∈ B, x = node_lookup fb.1 := by
  intro B
  induction B with
  | nil =>
      intro x hx
      simp [sigmaSlice] at hx
  | cons fb Bs ih =>
      obtain ⟨fb1, fb2⟩ := fb
      intro x hx
      rw [sigmaSlice_cons, List.map_append, List.mem_append] at hx
      rcases hx with hx | hx
      · refine ⟨(fb1, fb2), by simp, ?_⟩
        by_cases hmem : node_lookup fb1 ∈ g.nodes
        · cases hlk : (fb2.1.zip fb2.2).lookup key with
          | none => rw [if_pos hmem, hlk] at hx; simp at hx
          | some b =>
              rw [if_pos hmem, hlk] at hx
              simpa using hx
        · rw [if_neg hmem] at hx
          simp at hx
      · obtain ⟨fb', hfb', heq⟩ := ih x hx
        exact ⟨fb', by simp [hfb'], heq⟩

/-- The burst dict `dict(zip(dates, scores))` has an entry for `key`
exactly when `key` occurs among the dates (given parallel lists of
equal length). -/
theorem zip_lookup_none_iff (ds : List ℤ) :
    ∀ (ss : List ℝ), ds.length = ss.length →
      ∀ key : ℤ, ((ds.zip ss).lookup key = none ↔ key ∉ ds) := by
  induction ds with
  | nil =>
      intro ss _ key
      simp [List.lookup]
  | cons d ds ih =>
      intro ss hlen key
      cases ss with
      | nil => simp at hlen
      | cons v ss =>
          simp only [List.zip_cons_cons]
          by_cases hkd : key = d
          · subst hkd
            rw [lookup_cons_self]
            simp
          · rw [lookup_cons_ne _ _ _ _ hkd]
            rw [ih ss (by simpa using hlen) key]
            simp [hkd]

/-- Claim C7: for a time slice with key `key`, the sigma result assigns
a value to the node of a feature of `B` iff that node is in the slice
graph *and* the slice key occurs in the feature burst series; the value
assigned is exactly `(centrality + 1) ^ burst - 1`; a node failing the
test is simply absent from the slice result. -/
theorem sigmaSlice_spec (g : GraphSlice) (node_lookup : ℕ → ℕ) (key : ℤ) :
    ∀ (B : List (ℕ × (List ℤ × List ℝ))),
      (B.map (fun fb => node_lookup fb.1)).Nodup →
      (∀ fb ∈ B, fb.2.1.length = fb.2.2.length) →
      ∀ f ser, (f, ser) ∈ B →
        ((∃ v, (sigmaSlice g node_lookup key B).lookup (node_lookup f)
            = some v)
          ↔ (node_lookup f ∈ g.nodes ∧ key ∈ ser.1))
        ∧ ∀ b, (ser.1.zip ser.2).lookup key = some b →
            node_lookup f ∈ g.nodes →
            (sigmaSlice g node_lookup key B).lookup (node_lookup f)
              = some ((g.centrality (node_lookup f) + 1) ^ b - 1) := by
  intro B
  induction B with
  | nil =>
      intro _ _ f ser hmem
      simp at hmem
  | cons fb Bs ih =>
      obtain ⟨fb1, fb2⟩ := fb
      intro hinj hser f ser hmem
      rw [List.map_cons, List.nodup_cons] at hinj
      rcases List.mem_cons.mp hmem with hhead | htail
      · -- the feature is the head entry
        rw [Prod.mk.injEq] at hhead
        obtain ⟨h1, h2⟩ := hhead
        subst h1
        subst h2
        by_cases hnode : node_lookup f ∈ g.nodes
        · cases hlk : (ser.1.zip ser.2).lookup key with
          | some b =>
              have hkey : key ∈ ser.1 := by
                have hiff := zip_lookup_none_iff ser.1 ser.2
                  (hser (f, ser) (by simp)) key
                by_contra hcon
                rw [← hiff] at hcon
                rw [hcon] at hlk
                simp at hlk
              have hlkup : (sigmaSlice g node_lookup key
                  ((f, ser) :: Bs)).lookup (node_lookup f)
                  = some ((g.centrality (node_lookup f) + 1) ^ b - 1) := by
                rw [sigmaSlice_cons, if_pos hnode, hlk]
                exact lookup_append_left _ _ _ _ (lookup_cons_self ..)
              refine ⟨⟨fun _ => ⟨hnode, hkey⟩, fun _ => ⟨_, hlkup⟩⟩, ?_⟩
              intro b' hb' _
              have hbb : b' = b := by
                simpa using hb'.symm
              subst hbb
              exact hlkup
          | none =>
              have hkey : key ∉ ser.1 :=
                (zip_lookup_none_iff ser.1 ser.2
                  (hser (f, ser) (by simp)) key).mp hlk
              have hnone : (sigmaSlice g node_lookup key
                  ((f, ser) :: Bs)).lookup (node_lookup f) = none := by
                rw [sigmaSlice_cons, if_pos hnode, hlk]
                simp only [List.nil_append]
                apply lookup_eq_none_of_not_mem
                intro hcon
                obtain ⟨fb', hfb', heq⟩ := sigmaSlice_keys_sub g node_lookup
                  key Bs _ hcon
                exact hinj.1 (heq ▸ List.mem_map_of_mem
                  (fun fb => node_lookup fb.1) hfb')
              refine ⟨⟨fun hv => ?_, fun hv => absurd hv.2 hkey⟩, ?_⟩
              · obtain ⟨v, hv⟩ := hv
                rw [hnone] at hv
                simp at hv
              · intro b hb
                simp at hb
        · have hnone : (sigmaSlice g node_lookup key
              ((f, ser) :: Bs)).lookup (node_lookup f) = none := by
            rw [sigmaSlice_cons, if_neg hnode]
            simp only [List.nil_append]
            apply lookup_eq_none_of_not_mem
            intro hcon
            obtain ⟨fb', hfb', heq⟩ := sigmaSlice_keys_sub g node_lookup
              key Bs _ hcon
            exact hinj.1 (heq ▸ List.mem_map_of_mem
              (fun fb => node_lookup fb.1) hfb')
          refine ⟨⟨fun hv => ?_, fun hv => absurd hv.1 hnode⟩, ?_⟩
          · obtain ⟨v, hv⟩ := hv
            rw [hnone] at hv
            simp at hv
          · intro b _ hnode'
            exact absurd hnode' hnode
      · -- the feature sits in the tail
        have hne : node_lookup f ≠ node_lookup fb1 := by
          intro hcon
          apply hinj.1
          rw [← hcon]
          exact List.mem_map_of_mem (fun fb => node_lookup fb.1) htail
        have hskip : (sigmaSlice g node_lookup key ((fb1, fb2) :: Bs)).lookup
            (node_lookup f)
            = (sigmaSlice g node_lookup key Bs).lookup (node_lookup f) := by
          rw [sigmaSlice_cons]
          apply lookup_append_of_not_mem
          by_cases hmem' : node_lookup fb1 ∈ g.nodes
          · cases hlk : (fb2.1.zip fb2.2).lookup key with
            | some b => simp [hmem', hlk, hne]
            | none => simp [hmem', hlk]
          · simp [hmem']
        have hres := ih hinj.2 (fun fb' hfb' => hser fb' (by simp [hfb']))
          f ser htail
        rw [hskip]
        exact hres

/-- Witness for `sigmaSlice_spec`: one feature `3`, mapped to node `3`,
with burst `0.5` at date `7`, centrality `0.2`. -/
theorem sigmaSlice_spec_witness :
    (sigmaSlice ⟨[3], fun _ => 0.2⟩ (fun n => n) 7 [(3, ([7], [0.5]))]).lookup 3
      = some (((0.2 : ℝ) + 1) ^ (0.5 : ℝ) - 1) :=
  (sigmaSlice_spec ⟨[3], fun _ => 0.2⟩ (fun n => n) 7 [(3, ([7], [0.5]))]
    (by simp) (by simp) 3 ([7], [0.5]) (by simp)).2 0.5 rfl (by simp)
end Tethne
